import Mathlib

/-!
Verification development for the trajectory core of the `rt-python` repository:
horizontal path derivation, path-relative distance projection, duplicate
detection, and temporal smoothing with speed derivation.

The repository ships the algorithmic core as the `pru` package, which is
called from the notebooks found in the repository; the notebooks supply the
call sites (`smooth_times`, `derive_horizontal_path`,
`calculate_path_distances`, `calculate_speed`, `find_duplicate_values`,
`calculate_elapsed_times`).  The `pru` implementation files themselves are
not part of the source tree available here, so every core operation below is
modelled from the specification's description of it, keeping the source
names used at the call sites.

Numeric modelling: sampled quantities (distances in nautical miles, elapsed
times in seconds, speeds) are modelled over `ℚ`, which keeps every
definition executable; the spherical geometry (unit vectors, great-circle
distances, across/along-track angles) is modelled over `ℝ` with real
trigonometric functions.
-/

/-- Modelled from the spec: the typed failure kinds of §7 (`InvalidCoordinate`,
`InsufficientPoints`, `DegenerateInput`, `InvalidWindow`). -/
inductive TrajError where
  | InvalidCoordinate
  | InsufficientPoints
  | DegenerateInput
  | InvalidWindow
  deriving DecidableEq, Repr

/-- Modelled from the spec: `groundSpeed(legLength, duration)` (source symbol
`calculate_speed`, absent from the tree): `legLength / duration` when
`duration > 0`, and the defined value `0` otherwise (first-sample
convention). -/
def calculate_speed (legLength duration : ℚ) : ℚ :=
  if 0 < duration then legLength / duration else 0

/-- Elementwise form of `calculate_speed`, as the notebooks apply it to the
parallel arrays of leg lengths and durations. -/
def calculate_speed_list (legLengths durations : List ℚ) : List ℚ :=
  List.zipWith calculate_speed legLengths durations

/-- Helper for `find_duplicate_values`: compares each element with its
immediate predecessor. -/
def find_duplicate_values_aux (prev : ℚ) (rest : List ℚ) (tolerance : ℚ) : List Bool :=
  match rest with
  | [] => []
  | d :: rest' => decide (|d - prev| < tolerance) :: find_duplicate_values_aux d rest' tolerance

/-- Modelled from the spec: `findDuplicates` (source symbol
`find_duplicate_values`, absent from the tree): a boolean mask of the same
length as the input, where the first sample is never flagged and a later
sample is flagged iff its distance is within `tolerance` of its immediate
predecessor's. -/
def find_duplicate_values (distances : List ℚ) (tolerance : ℚ) : List Bool :=
  match distances with
  | [] => []
  | d :: rest => false :: find_duplicate_values_aux d rest tolerance

/-- Modelled from the spec: `calculate_elapsed_times` (absent from the tree)
derives elapsed times in seconds from timestamps relative to a reference
timestamp. -/
def calculate_elapsed_times (times : List ℚ) (ref : ℚ) : List ℚ :=
  times.map (fun t => t - ref)

/-- The notebooks' duplicate filtering `times[~duplicate_positions]`: keep the
elements whose mask entry is `false`. -/
def filter_by_mask (xs : List ℚ) (mask : List Bool) : List ℚ :=
  (xs.zip mask).filterMap (fun p => if p.2 then none else some p.1)

/-- The notebooks' `np.ediff1d(xs, to_begin=[0])`: a leading `0` followed by
the consecutive differences of `xs`. -/
def ediff1d0 (xs : List ℚ) : List ℚ :=
  0 :: List.zipWith (fun a b => a - b) xs.tail xs

/-- The notebooks' `mean_delta`: the mean difference between the smoothed and
raw elapsed time series. -/
def mean_delta (smoothed elapsed : List ℚ) : ℚ :=
  (List.zipWith (fun a b => a - b) smoothed elapsed).sum / (List.zipWith (fun a b => a - b) smoothed elapsed).length

/-- Modelled from the spec: the window-weighted estimate of one interior
sample's time used by a `smoothTimes` pass — a local linear regression of
time against distance over the window of samples centred at `i` (window size
`w`, clipped at the array bounds), evaluated at `distances[i]`. -/
def windowEstimate (d t : List ℚ) (w : ℕ) (i : ℕ) : ℚ :=
  let n := d.length
  let h := w / 2
  let js := (List.range n).filter (fun j => i ≤ j + h && j ≤ i + h)
  let m : ℚ := (js.length : ℚ)
  let dbar := (js.map (fun j => d.getD j 0)).sum / m
  let tbar := (js.map (fun j => t.getD j 0)).sum / m
  let num := (js.map (fun j => (d.getD j 0 - dbar) * (t.getD j 0 - tbar))).sum
  let den := (js.map (fun j => (d.getD j 0 - dbar) ^ 2)).sum
  tbar + (num / den) * (d.getD i 0 - dbar)

/-- Modelled from the spec: the value of sample `i` after one `smoothTimes`
pass over distances `d` and input times `t` with window `w` and maximum speed
`ms`.  The first sample's time is 0 by definition, the last sample's time is
preserved exactly, and each interior sample's recomputed time is clamped so
that the leg from its (already recomputed) predecessor cannot imply a speed
above `ms`: a too-fast leg is replaced by the minimum duration consistent
with `ms`. -/
def passFun (ms : ℚ) (w : ℕ) (d t : List ℚ) : ℕ → ℚ
  | 0 => 0
  | i + 1 =>
    if i + 2 = d.length then t.getD (i + 1) 0
    else
      let prev := passFun ms w d t i
      let est := windowEstimate d t w (i + 1)
      let leg := d.getD (i + 1) 0 - d.getD i 0
      if ms * (est - prev) < leg then prev + leg / ms else est

/-- One full smoothing pass: the new time series, of the same length as the
distance array. -/
def smoothPass (ms : ℚ) (w : ℕ) (d t : List ℚ) : List ℚ :=
  (List.range d.length).map (passFun ms w d t)

/-- The smoothing pass repeated `iters` times. -/
def iterSmooth (ms : ℚ) (w : ℕ) (d : List ℚ) : ℕ → List ℚ → List ℚ
  | 0, t => t
  | k + 1, t => iterSmooth ms w d k (smoothPass ms w d t)

/-- Modelled from the spec: `smoothTimes(distances, elapsedTimes, windowSize,
iterations, maxSpeed)` (source symbol `smooth_times`, absent from the tree).
Fails with `DegenerateInput` when fewer than 2 usable samples are supplied
(or the parallel arrays disagree in length) and with `InvalidWindow` when the
window size exceeds the sample count; otherwise applies the clamped smoothing
pass `iterations` times. -/
def smooth_times (d t : List ℚ) (w iters : ℕ) (ms : ℚ) : Except TrajError (List ℚ) :=
  if d.length < 2 ∨ t.length ≠ d.length then .error .DegenerateInput
  else if d.length < w then .error .InvalidWindow
  else .ok (iterSmooth ms w d iters t)

/-- Decidable equality on `Except`, used to evaluate the model on concrete
inputs inside proofs. -/
instance {ε α : Type} [DecidableEq ε] [DecidableEq α] : DecidableEq (Except ε α) := fun a b =>
  match a, b with
  | .ok x, .ok y =>
    if h : x = y then .isTrue (by rw [h]) else .isFalse (by intro hc; cases hc; exact h rfl)
  | .error x, .error y =>
    if h : x = y then .isTrue (by rw [h]) else .isFalse (by intro hc; cases hc; exact h rfl)
  | .ok _, .error _ => .isFalse (by intro hc; cases hc)
  | .error _, .ok _ => .isFalse (by intro hc; cases hc)

/-- Modelled from the spec: `EcefVector` — an earth-centred-earth-fixed
vector representing a position on the unit sphere (`pru.EcefPoint`, absent
from the tree). -/
structure Vec3 where
  x : ℝ
  y : ℝ
  z : ℝ

instance : Inhabited Vec3 := ⟨⟨0, 0, 0⟩⟩

/-- Dot product of two ECEF vectors. -/
def Vec3.dot (a b : Vec3) : ℝ := a.x * b.x + a.y * b.y + a.z * b.z

/-- Cross product of two ECEF vectors. -/
def Vec3.cross (a b : Vec3) : Vec3 :=
  ⟨a.y * b.z - a.z * b.y, a.z * b.x - a.x * b.z, a.x * b.y - a.y * b.x⟩

/-- Euclidean norm of an ECEF vector. -/
noncomputable def norm3 (a : Vec3) : ℝ := Real.sqrt (a.dot a)

/-- Great-circle angular distance between two unit vectors (radians). -/
noncomputable def gcDist (a b : Vec3) : ℝ := Real.arccos (a.dot b)

/-- The notebooks' `np.deg2rad`. -/
noncomputable def deg2rad (x : ℝ) : ℝ := x * (Real.pi / 180)

/-- Modelled from the spec: `toEcef(lat, lon)` (source symbols
`calculate_EcefPoints` / `pru.ecef_functions`, absent from the tree):
deterministic over latitude [-90, 90] and longitude [-180, 180] degrees,
failing with `InvalidCoordinate` outside that range; produces the unit
vector of the position. -/
noncomputable def to_ecef (lat lon : ℝ) : Except TrajError Vec3 :=
  if -90 ≤ lat ∧ lat ≤ 90 ∧ -180 ≤ lon ∧ lon ≤ 180 then
    .ok ⟨Real.cos (deg2rad lat) * Real.cos (deg2rad lon),
         Real.cos (deg2rad lat) * Real.sin (deg2rad lon),
         Real.sin (deg2rad lat)⟩
  else .error .InvalidCoordinate

/-- Modelled from the spec: `toLatLon(EcefVector)` (source symbol
`to_lat_long`, absent from the tree): the latitude/longitude of a unit
vector, in radians. -/
noncomputable def Vec3.to_lat_long (v : Vec3) : ℝ × ℝ :=
  (Real.arcsin v.z, Complex.arg ((v.x : ℂ) + (v.y : ℂ) * Complex.I))

/-- Modelled from the spec: the perpendicular (cross-track) angular deviation
of point `p` from the great circle through segment endpoints `a` and `b`
(§4.2 step 3).  When the endpoints are coincident or antipodal the great
circle is degenerate and the deviation falls back to the great-circle
distance from `p` to the segment start, which makes the tolerance check pass
for coincident points as §4.2 requires. -/
noncomputable def deviation (a b p : Vec3) : ℝ :=
  open Classical in
  if a.cross b = ⟨0, 0, 0⟩ then gcDist a p
  else |Real.arcsin ((a.cross b).dot p / norm3 (a.cross b))|

/-- The interior index of maximal deviation for the segment `(lo, hi)`
(earliest index wins on ties), paired with that deviation; `none` when the
segment has no interior point. -/
noncomputable def maxDevIdx (pts : List Vec3) (lo hi : ℕ) : Option (ℕ × ℝ) :=
  ((List.range' (lo + 1) (hi - (lo + 1))).map
    (fun j => (j, deviation (pts.getD lo default) (pts.getD hi default) (pts.getD j default)))).foldl
    (fun best c =>
      match best with
      | none => some c
      | some b => if b.2 < c.2 then some c else some b) none

/-- Modelled from the spec: the recursive divide-and-conquer simplification of
§4.2, over index ranges of the input sequence.  A segment whose maximal
interior deviation exceeds the tolerance is split at the earliest index of
maximal deviation; otherwise it is replaced by its two endpoints. -/
noncomputable def simplifyIndices (pts : List Vec3) (tol : ℝ) (lo hi : ℕ) : List ℕ :=
  match maxDevIdx pts lo hi with
  | none => [lo, hi]
  | some (k, dmax) =>
    if h : tol < dmax ∧ lo < k ∧ k < hi then
      simplifyIndices pts tol lo k ++ (simplifyIndices pts tol k hi).tail
    else [lo, hi]
termination_by hi - lo
decreasing_by
  · omega
  · omega

/-- Modelled from the spec: a `Path` — the ordered waypoints produced by the
Horizontal Path Builder (`pru.EcefPath`, absent from the tree). -/
structure EcefPath where
  points : List Vec3

/-- Modelled from the spec: `path_distances` — the cumulative great-circle
distances of the path's own waypoints (radians), starting at 0. -/
noncomputable def EcefPath.path_distances (path : EcefPath) : List ℝ :=
  (List.zipWith gcDist path.points path.points.tail).scanl (fun acc leg => acc + leg) 0

/-- Modelled from the spec: `derivePath` (source symbol
`derive_horizontal_path`, absent from the tree): fails with
`InsufficientPoints` for fewer than 2 points, otherwise simplifies the point
sequence within the cross-track tolerance. -/
noncomputable def derive_horizontal_path (pts : List Vec3) (tol : ℝ) : Except TrajError EcefPath :=
  if pts.length < 2 then .error .InsufficientPoints
  else .ok ⟨(simplifyIndices pts tol 0 (pts.length - 1)).map (fun i => pts.getD i default)⟩

/-- Waypoint `j` of a path. -/
def EcefPath.wp (path : EcefPath) (j : ℕ) : Vec3 := path.points.getD j default

/-- Cumulative distance of waypoint `j` along its path. -/
noncomputable def EcefPath.segStart (path : EcefPath) (j : ℕ) : ℝ :=
  path.path_distances.getD j 0

/-- Length of path segment `j` (between waypoints `j` and `j+1`), radians. -/
noncomputable def EcefPath.segLen (path : EcefPath) (j : ℕ) : ℝ :=
  gcDist (path.wp j) (path.wp (j + 1))

/-- Modelled from the spec: the perpendicular angular distance of a point to
a path segment's great circle, as used by the Path Projector (§4.3). -/
noncomputable def crossTrackDev (a b p : Vec3) : ℝ :=
  |Real.arcsin ((a.cross b).dot p / norm3 (a.cross b))|

/-- Modelled from the spec: the along-track angular offset of a point's
projection onto the segment from `a` towards `b`, measured from `a`
(radians, signed). -/
noncomputable def alongTrackDist (a b p : Vec3) : ℝ :=
  Complex.arg ((p.dot a : ℂ) +
    ((p.dot ((a.cross b).cross a) / norm3 (a.cross b) : ℝ) : ℂ) * Complex.I)

/-- The along-path distance a segment assigns to a point: the segment start's
cumulative distance plus the point's along-track offset (§4.3). -/
noncomputable def EcefPath.segmentCandidate (path : EcefPath) (j : ℕ) (p : Vec3) : ℝ :=
  path.segStart j + alongTrackDist (path.wp j) (path.wp (j + 1)) p

/-- The small epsilon by which the along-track span of the first and last
segments is extended (§4.3). -/
noncomputable def EPSILON : ℝ := 1 / 1000

open Classical in
/-- Modelled from the spec: whether a point's along-track projection falls
within segment `j`'s span, extended by a small epsilon at the path ends. -/
noncomputable def segEligibleB (path : EcefPath) (j : ℕ) (p : Vec3) : Bool :=
  let a := alongTrackDist (path.wp j) (path.wp (j + 1)) p
  decide ((if j = 0 then -EPSILON else 0) ≤ a ∧
    a ≤ path.segLen j + (if j = path.points.length - 2 then EPSILON else 0))

/-- Earliest segment index minimizing the perpendicular deviation of `p`
among the given pool. -/
noncomputable def bestSegment (path : EcefPath) (p : Vec3) (pool : List ℕ) : Option ℕ :=
  pool.foldl
    (fun best j =>
      match best with
      | none => some j
      | some b =>
        if crossTrackDev (path.wp j) (path.wp (j + 1)) p <
            crossTrackDev (path.wp b) (path.wp (b + 1)) p then some j
        else some b) none

/-- Modelled from the spec: the along-path distance the Path Projector
assigns to one point (§4.3): the candidate of the perpendicular-distance
minimizing segment among those whose along-track projection falls within
span, falling back to the closest segment overall when no segment's span
contains the point (best effort). -/
noncomputable def projectPoint (path : EcefPath) (p : Vec3) : ℝ :=
  let idxs := List.range (path.points.length - 1)
  let elig := idxs.filter (fun j => segEligibleB path j p)
  let pool := if elig.isEmpty then idxs else elig
  match bestSegment path p pool with
  | none => 0
  | some j => path.segmentCandidate j p

/-- Modelled from the spec: `projectDistances(path, points, tolerance)`
(source symbol `calculate_path_distances`, absent from the tree).  The
tolerance bounds the expected error but does not reject points: every point
is assigned to a segment best-effort, so it does not influence the result. -/
noncomputable def EcefPath.calculate_path_distances (path : EcefPath) (pts : List Vec3)
    (tol : ℝ) : List ℝ :=
  pts.map (fun p => projectPoint path p)

/-- A concrete unit vector (latitude 0, longitude 0), used to evaluate the
geometric model on concrete inputs. -/
def vA : Vec3 := ⟨1, 0, 0⟩

/-- A concrete unit vector (latitude 0, longitude 90°), used to evaluate the
geometric model on concrete inputs. -/
def vB : Vec3 := ⟨0, 1, 0⟩

/-!  ## Helper lemmas: the rational time/speed model -/

theorem find_duplicate_values_aux_length (prev : ℚ) (rest : List ℚ) (tol : ℚ) :
    (find_duplicate_values_aux prev rest tol).length = rest.length := by
  induction rest generalizing prev with
  | nil => rfl
  | cons d rest' ih => simp [find_duplicate_values_aux, ih]

theorem find_duplicate_values_length (ds : List ℚ) (tol : ℚ) :
    (find_duplicate_values ds tol).length = ds.length := by
  cases ds with
  | nil => rfl
  | cons d rest => simp [find_duplicate_values, find_duplicate_values_aux_length]

theorem find_duplicate_values_aux_getD (rest : List ℚ) (prev : ℚ) (tol : ℚ) (i : ℕ)
    (hi : i < rest.length) :
    (find_duplicate_values_aux prev rest tol).getD i false =
      decide (|rest.getD i 0 - (prev :: rest).getD i 0| < tol) := by
  induction rest generalizing prev i with
  | nil => simp at hi
  | cons d rest' ih =>
    cases i with
    | zero => simp [find_duplicate_values_aux]
    | succ j =>
      have hj : j < rest'.length := by simpa using hi
      simp only [find_duplicate_values_aux, List.getD_cons_succ]
      exact ih d j hj

theorem zipWith_sub_map_sub_const (l : List ℚ) (a c : ℚ) :
    List.zipWith (fun u v => u - v) (l.map (fun x => x - c)) ((a - c) :: l.map (fun x => x - c)) =
      List.zipWith (fun u v => u - v) l (a :: l) := by
  induction l generalizing a with
  | nil => rfl
  | cons b l' ih =>
    simp only [List.map_cons, List.zipWith_cons_cons]
    rw [ih b]
    congr 1
    ring

theorem ediff1d0_map_sub_const (xs : List ℚ) (c : ℚ) :
    ediff1d0 (xs.map (fun x => x - c)) = ediff1d0 xs := by
  unfold ediff1d0
  congr 1
  cases xs with
  | nil => rfl
  | cons a l => simpa using zipWith_sub_map_sub_const l a c

theorem getD_range_map {α : Type} [Inhabited α] (f : ℕ → α) (dflt : α) {n i : ℕ} (h : i < n) :
    ((List.range n).map f).getD i dflt = f i := by
  have h1 : i < ((List.range n).map f).length := by simpa using h
  rw [List.getD_eq_getElem _ _ h1]
  simp

theorem smoothPass_length (ms : ℚ) (w : ℕ) (d t : List ℚ) :
    (smoothPass ms w d t).length = d.length := by
  simp [smoothPass]

theorem iterSmooth_length (ms : ℚ) (w : ℕ) (d : List ℚ) (k : ℕ) (t : List ℚ)
    (ht : t.length = d.length) : (iterSmooth ms w d k t).length = d.length := by
  induction k generalizing t with
  | zero => exact ht
  | succ j ih => exact ih (smoothPass ms w d t) (smoothPass_length ms w d t)

theorem smoothPass_getD_zero (ms : ℚ) (w : ℕ) (d t : List ℚ) (h : 0 < d.length) :
    (smoothPass ms w d t).getD 0 0 = 0 := by
  unfold smoothPass
  rw [getD_range_map _ _ h]
  rfl

theorem smoothPass_getD_last (ms : ℚ) (w : ℕ) (d t : List ℚ) (h : 2 ≤ d.length) :
    (smoothPass ms w d t).getD (d.length - 1) 0 = t.getD (d.length - 1) 0 := by
  obtain ⟨m, hm⟩ : ∃ m, d.length = m + 2 := ⟨d.length - 2, by omega⟩
  unfold smoothPass
  rw [getD_range_map _ _ (by omega : d.length - 1 < d.length)]
  rw [hm]
  show passFun ms w d t (m + 1) = t.getD (m + 1) 0
  rw [passFun, if_pos (by omega)]

theorem iterSmooth_getD_zero (ms : ℚ) (w : ℕ) (d : List ℚ) (k : ℕ) (t : List ℚ)
    (hd : 0 < d.length) (ht0 : t.getD 0 0 = 0) :
    (iterSmooth ms w d k t).getD 0 0 = 0 := by
  induction k generalizing t with
  | zero => exact ht0
  | succ j ih => exact ih (smoothPass ms w d t) (smoothPass_getD_zero ms w d t hd)

theorem iterSmooth_getD_last (ms : ℚ) (w : ℕ) (d : List ℚ) (k : ℕ) (t : List ℚ)
    (hd : 2 ≤ d.length) :
    (iterSmooth ms w d k t).getD (d.length - 1) 0 = t.getD (d.length - 1) 0 := by
  induction k generalizing t with
  | zero => rfl
  | succ j ih =>
    show (iterSmooth ms w d j (smoothPass ms w d t)).getD (d.length - 1) 0 = _
    rw [ih (smoothPass ms w d t), smoothPass_getD_last ms w d t hd]

theorem smoothPass_clamp (ms : ℚ) (w : ℕ) (d t : List ℚ) (hms : 0 < ms) (i : ℕ)
    (hi : i + 2 < d.length) :
    d.getD (i + 1) 0 - d.getD i 0 ≤
      ms * ((smoothPass ms w d t).getD (i + 1) 0 - (smoothPass ms w d t).getD i 0) := by
  unfold smoothPass
  rw [getD_range_map _ _ (by omega : i + 1 < d.length), getD_range_map _ _ (by omega : i < d.length)]
  rw [passFun]
  rw [if_neg (by omega)]
  set prev := passFun ms w d t i with hprev
  set est := windowEstimate d t w (i + 1) with hest
  set leg := d.getD (i + 1) 0 - d.getD i 0 with hleg
  by_cases hc : ms * (est - prev) < leg
  · rw [if_pos hc]
    rw [add_sub_cancel_left, mul_div_cancel₀ _ (ne_of_gt hms)]
  · rw [if_neg hc]
    exact le_of_not_lt hc

theorem iterSmooth_eq_pass_of_pos (ms : ℚ) (w : ℕ) (d : List ℚ) (k : ℕ) (t : List ℚ)
    (hk : 1 ≤ k) : ∃ u : List ℚ, iterSmooth ms w d k t = smoothPass ms w d u := by
  induction k generalizing t with
  | zero => omega
  | succ j ih =>
    cases j with
    | zero => exact ⟨t, rfl⟩
    | succ j' =>
      obtain ⟨u, hu⟩ := ih (smoothPass ms w d t) (by omega)
      exact ⟨u, hu⟩

theorem smooth_times_ok_elim (d t : List ℚ) (w iters : ℕ) (ms : ℚ) (out : List ℚ)
    (hok : smooth_times d t w iters ms = .ok out) :
    2 ≤ d.length ∧ t.length = d.length ∧ w ≤ d.length ∧ out = iterSmooth ms w d iters t := by
  unfold smooth_times at hok
  by_cases h1 : d.length < 2 ∨ t.length ≠ d.length
  · rw [if_pos h1] at hok; cases hok
  · rw [if_neg h1] at hok
    by_cases h2 : d.length < w
    · rw [if_pos h2] at hok; cases hok
    · rw [if_neg h2] at hok
      push_neg at h1
      refine ⟨h1.1, h1.2, by omega, ?_⟩
      cases hok
      rfl

/-- Evaluation of `smooth_times` on the spec's end-to-end scenario: distances
[0, 10, 20, 40] NM, raw elapsed times [0, 58, 121, 240] s, window 3, one
iteration, maximum speed 500 knots = 5/36 NM per second. -/
theorem smooth_times_scenario_eval :
    smooth_times [0, 10, 20, 40] [0, 58, 121, 240] 3 1 (5/36) = .ok [0, 72, 144, 240] := by
  norm_num [smooth_times, iterSmooth, smoothPass, passFun, windowEstimate, List.range_succ]

/-!  ## Claim theorems: time smoothing and speed derivation -/

/-- C6: `calculate_speed` returns `legLength / duration` whenever
`duration > 0` and the defined value `0` (not an error) whenever
`duration == 0`; in particular `calculate_speed 0 5 = 0` and
`calculate_speed 10 0 = 0`. -/
theorem calculate_speed_spec (l dur : ℚ) :
    (0 < dur → calculate_speed l dur = l / dur) ∧
    (dur = 0 → calculate_speed l dur = 0) ∧
    calculate_speed 0 5 = 0 ∧ calculate_speed 10 0 = 0 := by
  refine ⟨fun h => if_pos h, fun h => ?_, by norm_num [calculate_speed], by norm_num [calculate_speed]⟩
  subst h
  simp [calculate_speed]

/-- Witness for C6 at a concrete positive duration. -/
theorem calculate_speed_spec_witness :
    (0 < (2 : ℚ) ∧ calculate_speed 3 2 = 3 / 2) ∧ ((0 : ℚ) = 0 ∧ calculate_speed 7 0 = 0) :=
  ⟨⟨by norm_num, (calculate_speed_spec 3 2).1 (by norm_num)⟩,
   ⟨rfl, (calculate_speed_spec 7 0).2.1 rfl⟩⟩

/-- C7: `find_duplicate_values` returns a mask of the same length as its
input in which entry `i ≥ 1` is set iff `|distances[i] - distances[i-1]|`
is below the tolerance (each element compared only to its immediate
predecessor); in particular on [0, 0.001, 5, 5.0005] with tolerance 0.01 it
returns [false, true, false, true]. -/
theorem find_duplicate_values_spec (ds : List ℚ) (tol : ℚ) :
    (find_duplicate_values ds tol).length = ds.length ∧
    (∀ i, 0 < i → i < ds.length →
      ((find_duplicate_values ds tol).getD i false = true ↔
        |ds.getD i 0 - ds.getD (i - 1) 0| < tol)) ∧
    find_duplicate_values [0, 1/1000, 5, 5 + 1/2000] (1/100) = [false, true, false, true] := by
  refine ⟨find_duplicate_values_length ds tol, ?_,
    by norm_num [find_duplicate_values, find_duplicate_values_aux, abs_of_nonneg]⟩
  intro i hi hlen
  cases ds with
  | nil => simp at hlen
  | cons d rest =>
    cases i with
    | zero => omega
    | succ j =>
      have hj : j < rest.length := by simpa using hlen
      show ((false :: find_duplicate_values_aux d rest tol).getD (j + 1) false = true ↔ _)
      rw [List.getD_cons_succ, find_duplicate_values_aux_getD rest d tol j hj]
      rw [decide_eq_true_iff]
      simp

/-- Witness for C7's indexed clause at index 1 of the concrete example. -/
theorem find_duplicate_values_spec_witness :
    (0 < 1 ∧ 1 < ([0, 1/1000, 5, 5 + 1/2000] : List ℚ).length) ∧
    ((find_duplicate_values [0, 1/1000, 5, 5 + 1/2000] (1/100)).getD 1 false = true ↔
      |([0, 1/1000, 5, 5 + 1/2000] : List ℚ).getD 1 0 -
        ([0, 1/1000, 5, 5 + 1/2000] : List ℚ).getD 0 0| < 1/100) :=
  ⟨⟨by norm_num, by norm_num⟩,
   (find_duplicate_values_spec [0, 1/1000, 5, 5 + 1/2000] (1/100)).2.1 1 (by norm_num) (by norm_num)⟩

/-- C9: the first sample is never flagged as a duplicate (the mask starts
with `false`), so it survives duplicate filtering, and the elapsed times of
the filtered samples relative to the first timestamp start at exactly 0. -/
theorem first_sample_never_duplicate (d0 t0 : ℚ) (ds ts : List ℚ) (tol : ℚ) :
    (find_duplicate_values (d0 :: ds) tol).head? = some false ∧
    (calculate_elapsed_times
      (filter_by_mask (t0 :: ts) (find_duplicate_values (d0 :: ds) tol)) t0).head? = some 0 := by
  constructor
  · rfl
  · show (calculate_elapsed_times
      (filter_by_mask (t0 :: ts) (false :: find_duplicate_values_aux d0 ds tol)) t0).head? = some 0
    simp [filter_by_mask, calculate_elapsed_times, List.filterMap_cons]

/-- C10: subtracting the constant `mean_delta` from every element of the
smoothed time series leaves all consecutive time differences (and hence all
derived ground speeds) unchanged, so the caller-side re-centering preserves
any speed bound established before it. -/
theorem recentering_preserves_speeds (dists smoothed elapsed : List ℚ) (ms : ℚ) :
    ediff1d0 (smoothed.map (fun x => x - mean_delta smoothed elapsed)) = ediff1d0 smoothed ∧
    calculate_speed_list (ediff1d0 dists)
        (ediff1d0 (smoothed.map (fun x => x - mean_delta smoothed elapsed))) =
      calculate_speed_list (ediff1d0 dists) (ediff1d0 smoothed) ∧
    ((∀ s ∈ calculate_speed_list (ediff1d0 dists) (ediff1d0 smoothed), s ≤ ms) →
      ∀ s ∈ calculate_speed_list (ediff1d0 dists)
          (ediff1d0 (smoothed.map (fun x => x - mean_delta smoothed elapsed))), s ≤ ms) := by
  refine ⟨ediff1d0_map_sub_const _ _, by rw [ediff1d0_map_sub_const], ?_⟩
  intro hb s hs
  rw [ediff1d0_map_sub_const] at hs
  exact hb s hs

/-- Witness for C10's bound-preservation clause on a concrete series. -/
theorem recentering_preserves_speeds_witness :
    (∀ s ∈ calculate_speed_list (ediff1d0 [0, 1]) (ediff1d0 [0, 2]), s ≤ (1 : ℚ)) ∧
    (∀ s ∈ calculate_speed_list (ediff1d0 [0, 1])
        (ediff1d0 (([0, 2] : List ℚ).map (fun x => x - mean_delta [0, 2] [0, 1]))), s ≤ (1 : ℚ)) := by
  have hb : ∀ s ∈ calculate_speed_list (ediff1d0 [0, 1]) (ediff1d0 [0, 2]), s ≤ (1 : ℚ) := by
    intro s hs
    norm_num [calculate_speed_list, ediff1d0, calculate_speed] at hs
    rcases hs with h | h <;> rw [h] <;> norm_num
  exact ⟨hb, (recentering_preserves_speeds [0, 1] [0, 2] [0, 1] 1).2.2 hb⟩

/-- C4: whenever `smooth_times` succeeds on a valid input (a time series of
elapsed times, whose first entry is 0 by construction), the output's first
element is 0 and its last element equals the last raw elapsed time. -/
theorem smooth_times_endpoints (d t : List ℚ) (w iters : ℕ) (ms : ℚ) (out : List ℚ)
    (ht0 : t.getD 0 0 = 0) (hok : smooth_times d t w iters ms = .ok out) :
    out.getD 0 0 = 0 ∧ out.getD (out.length - 1) 0 = t.getD (t.length - 1) 0 := by
  obtain ⟨hd2, htd, hw, hout⟩ := smooth_times_ok_elim d t w iters ms out hok
  have hlen : out.length = d.length := by rw [hout]; exact iterSmooth_length _ _ _ _ _ htd
  constructor
  · rw [hout]
    exact iterSmooth_getD_zero ms w d iters t (by omega) ht0
  · rw [hlen, htd, hout]
    exact iterSmooth_getD_last ms w d iters t hd2

/-- Witness for C4 on the spec's end-to-end scenario: the output
[0, 72, 144, 240] keeps 0 first and 240 last. -/
theorem smooth_times_endpoints_witness :
    (([0, 58, 121, 240] : List ℚ).getD 0 0 = 0 ∧
      smooth_times [0, 10, 20, 40] [0, 58, 121, 240] 3 1 (5/36) = .ok [0, 72, 144, 240]) ∧
    (([0, 72, 144, 240] : List ℚ).getD 0 0 = 0 ∧
      ([0, 72, 144, 240] : List ℚ).getD (([0, 72, 144, 240] : List ℚ).length - 1) 0 =
        ([0, 58, 121, 240] : List ℚ).getD (([0, 58, 121, 240] : List ℚ).length - 1) 0) :=
  ⟨⟨rfl, smooth_times_scenario_eval⟩,
   smooth_times_endpoints [0, 10, 20, 40] [0, 58, 121, 240] 3 1 (5/36) [0, 72, 144, 240]
     rfl smooth_times_scenario_eval⟩

/-!  ## Helper lemmas: the horizontal path builder -/

theorem simplifyIndices_spec (pts : List Vec3) (tol : ℝ) (lo hi : ℕ) (hlt : lo < hi) :
    (simplifyIndices pts tol lo hi).head? = some lo ∧
    (simplifyIndices pts tol lo hi).getLast? = some hi ∧
    (simplifyIndices pts tol lo hi).Chain' (· < ·) ∧
    ∀ x ∈ simplifyIndices pts tol lo hi, lo ≤ x ∧ x ≤ hi := by
  induction lo, hi using simplifyIndices.induct pts tol with
  | case1 lo hi hnone =>
    rw [simplifyIndices, hnone]
    refine ⟨rfl, rfl, ?_, ?_⟩
    · exact List.chain'_cons.mpr ⟨hlt, List.chain'_singleton hi⟩
    · intro x hx
      simp only [List.mem_cons, List.not_mem_nil, or_false] at hx
      rcases hx with h | h <;> omega
  | case2 lo hi k dmax hsome hcond ih1 ih2 =>
    rw [simplifyIndices, hsome]
    dsimp only
    rw [dif_pos hcond]
    obtain ⟨hdev, hlok, hkhi⟩ := hcond
    obtain ⟨hh1, hl1, hc1, hm1⟩ := ih1 hlok
    obtain ⟨hh2, hl2, hc2, hm2⟩ := ih2 hkhi
    set L1 := simplifyIndices pts tol lo k with hL1
    set L2 := simplifyIndices pts tol k hi with hL2
    obtain ⟨t1, ht1⟩ : ∃ t1, L1 = lo :: t1 := by
      cases hL : L1 with
      | nil => rw [hL] at hh1; cases hh1
      | cons a t =>
        rw [hL] at hh1
        simp only [List.head?_cons, Option.some.injEq] at hh1
        exact ⟨t, by rw [hh1]⟩
    obtain ⟨t2, ht2⟩ : ∃ t2, L2 = k :: t2 := by
      cases hL : L2 with
      | nil => rw [hL] at hh2; cases hh2
      | cons a t =>
        rw [hL] at hh2
        simp only [List.head?_cons, Option.some.injEq] at hh2
        exact ⟨t, by rw [hh2]⟩
    have ht2ne : t2 ≠ [] := by
      intro hnil
      rw [ht2, hnil] at hl2
      simp at hl2
      omega
    have hl2' : t2.getLast? = some hi := by
      cases ht2' : t2 with
      | nil => exact absurd ht2' ht2ne
      | cons b t2' =>
        rw [ht2, ht2', List.getLast?_cons_cons] at hl2
        exact hl2
    have htail : L2.tail = t2 := by rw [ht2]; rfl
    refine ⟨?_, ?_, ?_, ?_⟩
    · rw [htail, ht1]
      rfl
    · rw [htail, List.getLast?_append_of_ne_nil _ ht2ne]
      exact hl2'
    · rw [htail]
      refine List.Chain'.append hc1 (by rw [ht2] at hc2; exact hc2.tail) ?_
      intro x hx y hy
      rw [hl1] at hx
      simp only [Option.mem_def, Option.some.injEq] at hx
      subst hx
      rw [ht2] at hc2
      exact hc2.rel_head? hy
    · intro x hx
      rw [htail] at hx
      rcases List.mem_append.mp hx with h | h
      · have := hm1 x h
        omega
      · have : x ∈ L2 := by rw [ht2]; exact List.mem_cons_of_mem _ h
        have := hm2 x this
        omega
  | case3 lo hi k dmax hsome hcond =>
    rw [simplifyIndices, hsome]
    dsimp only
    rw [dif_neg hcond]
    refine ⟨rfl, rfl, ?_, ?_⟩
    · exact List.chain'_cons.mpr ⟨hlt, List.chain'_singleton hi⟩
    · intro x hx
      simp only [List.mem_cons, List.not_mem_nil, or_false] at hx
      rcases hx with h | h <;> omega

theorem sublist_of_sorted_indices {α : Type} [Inhabited α] :
    ∀ (n : ℕ) (idxs : List ℕ), idxs.length ≤ n → ∀ (l : List α), idxs.Chain' (· < ·) →
      (∀ i ∈ idxs, i < l.length) →
      (idxs.map (fun i => l.getD i default)).Sublist l := by
  intro n
  induction n with
  | zero =>
    intro idxs hlen l _ _
    cases idxs with
    | nil => simp
    | cons i is => simp at hlen
  | succ m ih =>
    intro idxs hlen l hchain hbound
    cases idxs with
    | nil => simp
    | cons i is =>
      have hi : i < l.length := hbound i (List.mem_cons_self i is)
      have hpair : List.Pairwise (· < ·) (i :: is) := List.chain'_iff_pairwise.mp hchain
      have hlt : ∀ j ∈ is, i < j := (List.pairwise_cons.mp hpair).1
      have hchain2 : is.Chain' (· < ·) := hchain.tail
      set is' := is.map (fun j => j - (i + 1)) with his'
      have hlen' : is'.length ≤ m := by
        rw [his', List.length_map]
        simpa using hlen
      have hchain' : is'.Chain' (· < ·) := by
        rw [his', List.chain'_map]
        refine List.Pairwise.chain' ?_
        refine ((List.pairwise_cons.mp hpair).2.imp_of_mem ?_)
        intro a b ha hb hab
        have hia := hlt a ha
        have hib := hlt b hb
        omega
      have hbound' : ∀ j ∈ is', j < (l.drop (i + 1)).length := by
        intro j hj
        rw [his'] at hj
        obtain ⟨j0, hj0, rfl⟩ := List.mem_map.mp hj
        have h1 := hbound j0 (List.mem_cons_of_mem i hj0)
        have h2 := hlt j0 hj0
        rw [List.length_drop]
        omega
      have hrec := ih is' hlen' (l.drop (i + 1)) hchain' hbound'
      have hmap : is.map (fun j => l.getD j default) =
          is'.map (fun j => (l.drop (i + 1)).getD j default) := by
        rw [his', List.map_map]
        apply List.map_congr_left
        intro j hj
        have hij : i < j := hlt j hj
        have hjl : j < l.length := hbound j (List.mem_cons_of_mem i hj)
        have hd : j - (i + 1) < (l.drop (i + 1)).length := by
          rw [List.length_drop]; omega
        show l.getD j default = (l.drop (i + 1)).getD (j - (i + 1)) default
        rw [List.getD_eq_getElem _ _ hjl, List.getD_eq_getElem _ _ hd]
        rw [List.getElem_drop]
        congr 1
        omega
      simp only [List.map_cons]
      rw [hmap]
      have hstep := List.Sublist.cons₂ (l.getD i default) hrec
      have hcons : l.getD i default :: l.drop (i + 1) = l.drop i := by
        rw [List.getD_eq_getElem _ _ hi]
        exact List.cons_getElem_drop_succ
      rw [hcons] at hstep
      exact hstep.trans (List.drop_sublist i l)

/-!  ## Helper lemmas: spherical geometry of the projector -/

theorem Vec3.dot_comm (a b : Vec3) : a.dot b = b.dot a := by
  unfold Vec3.dot; ring

theorem dot_self_nonneg (a : Vec3) : 0 ≤ a.dot a := by
  unfold Vec3.dot
  nlinarith [sq_nonneg a.x, sq_nonneg a.y, sq_nonneg a.z]

theorem dot_cross_self_right (a b : Vec3) : (a.cross b).dot a = 0 := by
  simp only [Vec3.dot, Vec3.cross]; ring

theorem dot_cross_self_left (a b : Vec3) : (a.cross b).dot b = 0 := by
  simp only [Vec3.dot, Vec3.cross]; ring

theorem dot_cross_cross_start (a b : Vec3) : a.dot ((a.cross b).cross a) = 0 := by
  simp only [Vec3.dot, Vec3.cross]; ring

theorem dot_cross_cross_end (a b : Vec3) :
    b.dot ((a.cross b).cross a) = (a.dot a) * (b.dot b) - (a.dot b) ^ 2 := by
  simp only [Vec3.dot, Vec3.cross]; ring

theorem cross_dot_self (a b : Vec3) :
    (a.cross b).dot (a.cross b) = (a.dot a) * (b.dot b) - (a.dot b) ^ 2 := by
  simp only [Vec3.dot, Vec3.cross]; ring

theorem crossTrackDev_start (a b : Vec3) : crossTrackDev a b a = 0 := by
  unfold crossTrackDev
  rw [dot_cross_self_right]
  simp

theorem crossTrackDev_end (a b : Vec3) : crossTrackDev a b b = 0 := by
  unfold crossTrackDev
  rw [dot_cross_self_left]
  simp

theorem alongTrackDist_start (a b : Vec3) : alongTrackDist a b a = 0 := by
  unfold alongTrackDist
  rw [dot_cross_cross_start]
  rw [zero_div]
  simp only [Complex.ofReal_zero, zero_mul, add_zero]
  exact Complex.arg_ofReal_of_nonneg (dot_self_nonneg a)

theorem alongTrackDist_end (a b : Vec3) (ha : a.dot a = 1) (hb : b.dot b = 1) :
    alongTrackDist a b b = Real.arccos (a.dot b) := by
  unfold alongTrackDist
  set c := a.dot b with hc
  have h1 : b.dot ((a.cross b).cross a) = 1 - c ^ 2 := by
    rw [dot_cross_cross_end, ha, hb, one_mul]
  have h2 : (a.cross b).dot (a.cross b) = 1 - c ^ 2 := by
    rw [cross_dot_self, ha, hb, one_mul]
  have hnn : 0 ≤ 1 - c ^ 2 := h2 ▸ dot_self_nonneg (a.cross b)
  have hnorm : norm3 (a.cross b) = Real.sqrt (1 - c ^ 2) := by
    unfold norm3; rw [h2]
  have hcomm : b.dot a = c := by rw [Vec3.dot_comm b a]
  have hc1 : -1 ≤ c := by nlinarith
  have hc2 : c ≤ 1 := by nlinarith
  rw [h1, hnorm, hcomm]
  rcases eq_or_lt_of_le hc1 with heq | hlt
  · rw [← heq]
    norm_num [Complex.arg_neg_one, Real.arccos_neg_one]
  · have hdiv : (1 - c ^ 2) / Real.sqrt (1 - c ^ 2) = Real.sqrt (1 - c ^ 2) :=
      Real.div_sqrt
    rw [hdiv]
    have hsin : Real.sqrt (1 - c ^ 2) = Real.sin (Real.arccos c) :=
      (Real.sin_arccos c).symm
    have hcos : c = Real.cos (Real.arccos c) := (Real.cos_arccos hc1 hc2).symm
    calc Complex.arg ((c : ℂ) + ((Real.sqrt (1 - c ^ 2) : ℝ) : ℂ) * Complex.I)
        = Complex.arg (Complex.cos (Real.arccos c) +
            Complex.sin (Real.arccos c) * Complex.I) := by
          rw [hsin]
          nth_rewrite 1 [hcos]
          rw [Complex.ofReal_cos, Complex.ofReal_sin]
      _ = Real.arccos c := Complex.arg_cos_add_sin_mul_I
          ⟨lt_of_lt_of_le (neg_neg_of_pos Real.pi_pos) (Real.arccos_nonneg c),
            Real.arccos_le_pi c⟩

/-!  ## Helper lemmas: cumulative path distances -/

theorem scanl_add_head (legs : List ℝ) (init : ℝ) :
    (legs.scanl (fun acc leg => acc + leg) init).getD 0 0 = init := by
  cases legs <;> rfl

theorem scanl_add_head? (legs : List ℝ) (init : ℝ) :
    (legs.scanl (fun acc leg => acc + leg) init).head? = some init := by
  cases legs <;> rfl

theorem scanl_add_chain (legs : List ℝ) (init : ℝ) (h : ∀ x ∈ legs, 0 ≤ x) :
    (legs.scanl (fun acc leg => acc + leg) init).Chain' (· ≤ ·) := by
  induction legs generalizing init with
  | nil => simp [List.scanl]
  | cons a l ih =>
    rw [List.scanl]
    rw [List.chain'_cons']
    constructor
    · intro y hy
      rw [scanl_add_head?] at hy
      rw [Option.mem_def, Option.some.injEq] at hy
      have ha : 0 ≤ a := h a (List.mem_cons_self a l)
      rw [← hy]
      linarith
    · exact ih (init + a) (fun x hx => h x (List.mem_cons_of_mem a hx))

theorem scanl_add_le (legs : List ℝ) (init : ℝ) (h : ∀ x ∈ legs, 0 ≤ x) :
    ∀ x ∈ legs.scanl (fun acc leg => acc + leg) init, init ≤ x := by
  induction legs generalizing init with
  | nil =>
    intro x hx
    simp [List.scanl] at hx
    exact le_of_eq hx.symm
  | cons a l ih =>
    intro x hx
    rw [List.scanl] at hx
    rcases List.mem_cons.mp hx with hx | hx
    · exact le_of_eq hx.symm
    · have ha : 0 ≤ a := h a (List.mem_cons_self a l)
      have := ih (init + a) (fun y hy => h y (List.mem_cons_of_mem a hy)) x hx
      linarith

theorem scanl_add_getD_succ (legs : List ℝ) (init : ℝ) (k : ℕ) (hk : k < legs.length) :
    (legs.scanl (fun acc leg => acc + leg) init).getD (k + 1) 0 =
      (legs.scanl (fun acc leg => acc + leg) init).getD k 0 + legs.getD k 0 := by
  induction legs generalizing init k with
  | nil => simp at hk
  | cons a l ih =>
    rw [List.scanl]
    cases k with
    | zero =>
      show (List.scanl _ (init + a) l).getD 0 0 = init + a
      exact scanl_add_head l (init + a)
    | succ j =>
      have hj : j < l.length := by simpa using hk
      show (List.scanl _ (init + a) l).getD (j + 1) 0 =
        (List.scanl _ (init + a) l).getD j 0 + l.getD j 0
      exact ih (init + a) j hj

theorem zipWith_gcDist_nonneg (l1 l2 : List Vec3) :
    ∀ x ∈ List.zipWith gcDist l1 l2, 0 ≤ x := by
  induction l1 generalizing l2 with
  | nil => simp
  | cons a l ih =>
    cases l2 with
    | nil => simp
    | cons b l2' =>
      intro x hx
      rcases List.mem_cons.mp hx with hx | hx
      · rw [hx]; exact Real.arccos_nonneg _
      · exact ih l2' x hx

theorem path_distances_head (path : EcefPath) : path.path_distances.getD 0 0 = 0 :=
  scanl_add_head _ 0

theorem path_distances_chain (path : EcefPath) : path.path_distances.Chain' (· ≤ ·) :=
  scanl_add_chain _ 0 (zipWith_gcDist_nonneg _ _)

theorem path_distances_nonneg (path : EcefPath) : ∀ x ∈ path.path_distances, 0 ≤ x :=
  scanl_add_le _ 0 (zipWith_gcDist_nonneg _ _)

theorem path_distances_succ (path : EcefPath) (k : ℕ) (hk : k + 1 < path.points.length) :
    path.path_distances.getD (k + 1) 0 =
      path.path_distances.getD k 0 + gcDist (path.wp k) (path.wp (k + 1)) := by
  have hlen : k < (List.zipWith gcDist path.points path.points.tail).length := by
    rw [List.length_zipWith, List.length_tail]
    omega
  unfold EcefPath.path_distances
  rw [scanl_add_getD_succ _ 0 k hlen]
  congr 1
  have hk1 : k < path.points.length := by omega
  have hk2 : k < path.points.tail.length := by rw [List.length_tail]; omega
  rw [List.getD_eq_getElem _ _ hlen, List.getElem_zipWith]
  unfold EcefPath.wp
  rw [List.getD_eq_getElem _ _ hk1, List.getD_eq_getElem _ _ (by omega : k + 1 < path.points.length)]
  congr 1
  rw [List.getElem_tail]

/-!  ## Helper lemmas: concrete evaluations of the path builder -/

theorem vA_dot_vA : vA.dot vA = 1 := by norm_num [Vec3.dot, vA]

theorem vB_dot_vB : vB.dot vB = 1 := by norm_num [Vec3.dot, vB]

theorem vA_dot_vB : vA.dot vB = 0 := by norm_num [Vec3.dot, vA, vB]

theorem vB_dot_vA : vB.dot vA = 0 := by norm_num [Vec3.dot, vA, vB]

theorem gcDist_vA_vB : gcDist vA vB = Real.pi / 2 := by
  unfold gcDist
  rw [vA_dot_vB, Real.arccos_zero]

theorem gcDist_vB_vA : gcDist vB vA = Real.pi / 2 := by
  unfold gcDist
  rw [vB_dot_vA, Real.arccos_zero]

theorem maxDevIdx_adjacent (pts : List Vec3) (lo : ℕ) : maxDevIdx pts lo (lo + 1) = none := by
  unfold maxDevIdx
  have : lo + 1 - (lo + 1) = 0 := by omega
  rw [this]
  rfl

theorem simplifyIndices_adjacent (pts : List Vec3) (tol : ℝ) (lo : ℕ) :
    simplifyIndices pts tol lo (lo + 1) = [lo, lo + 1] := by
  rw [simplifyIndices, maxDevIdx_adjacent]

theorem derive_two_eval (tol : ℝ) :
    derive_horizontal_path [vA, vB] tol = .ok ⟨[vA, vB]⟩ := by
  unfold derive_horizontal_path
  rw [if_neg (by norm_num)]
  rw [show ([vA, vB].length - 1 : ℕ) = 0 + 1 from rfl, simplifyIndices_adjacent]
  rfl

theorem deviation_loop : deviation vA vA vB = Real.pi / 2 := by
  unfold deviation
  rw [if_pos (by norm_num [Vec3.cross, vA])]
  exact gcDist_vA_vB

theorem maxDevIdx_loop :
    maxDevIdx [vA, vB, vA] 0 2 = some (1, deviation vA vA vB) := by
  unfold maxDevIdx
  rfl

theorem simplifyIndices_loop :
    simplifyIndices [vA, vB, vA] (1/100) 0 2 = [0, 1, 2] := by
  rw [simplifyIndices, maxDevIdx_loop]
  dsimp only
  rw [dif_pos ⟨by rw [deviation_loop]; linarith [Real.pi_gt_three], by omega, by omega⟩]
  rw [show (1 : ℕ) = 0 + 1 from rfl, simplifyIndices_adjacent]
  rw [show (2 : ℕ) = (0 + 1) + 1 from rfl, simplifyIndices_adjacent]
  rfl

theorem derive_loop_eval :
    derive_horizontal_path [vA, vB, vA] (1/100) = .ok ⟨[vA, vB, vA]⟩ := by
  unfold derive_horizontal_path
  rw [if_neg (by norm_num)]
  rw [show ([vA, vB, vA].length - 1 : ℕ) = 2 from rfl, simplifyIndices_loop]
  rfl

theorem dists_loop :
    (⟨[vA, vB, vA]⟩ : EcefPath).path_distances = [0, Real.pi / 2, Real.pi] := by
  show (List.zipWith gcDist [vA, vB, vA] [vB, vA]).scanl (fun acc leg => acc + leg) 0 =
    [0, Real.pi / 2, Real.pi]
  rw [List.zipWith_cons_cons, List.zipWith_cons_cons]
  rw [gcDist_vA_vB, gcDist_vB_vA]
  show [(0 : ℝ), 0 + Real.pi / 2, 0 + Real.pi / 2 + Real.pi / 2] = _
  norm_num

theorem alongTrack_vA_vB_vB : alongTrackDist vA vB vB = Real.pi / 2 := by
  rw [alongTrackDist_end vA vB vA_dot_vA vB_dot_vB, vA_dot_vB, Real.arccos_zero]

theorem segEligibleB_loop_0 : segEligibleB ⟨[vA, vB, vA]⟩ 0 vB = true := by
  unfold segEligibleB
  apply decide_eq_true
  show (if (0 : ℕ) = 0 then -EPSILON else 0) ≤ alongTrackDist vA vB vB ∧
    alongTrackDist vA vB vB ≤ (⟨[vA, vB, vA]⟩ : EcefPath).segLen 0 +
      (if (0 : ℕ) = 1 then EPSILON else 0)
  have hl0 : (⟨[vA, vB, vA]⟩ : EcefPath).segLen 0 = Real.pi / 2 := gcDist_vA_vB
  rw [alongTrack_vA_vB_vB, hl0, if_pos rfl, if_neg (by omega)]
  unfold EPSILON
  constructor
  · linarith [Real.pi_pos]
  · linarith

theorem segEligibleB_loop_1 : segEligibleB ⟨[vA, vB, vA]⟩ 1 vB = true := by
  unfold segEligibleB
  apply decide_eq_true
  show (if (1 : ℕ) = 0 then -EPSILON else 0) ≤ alongTrackDist vB vA vB ∧
    alongTrackDist vB vA vB ≤ (⟨[vA, vB, vA]⟩ : EcefPath).segLen 1 +
      (if (1 : ℕ) = 1 then EPSILON else 0)
  have hl1 : (⟨[vA, vB, vA]⟩ : EcefPath).segLen 1 = Real.pi / 2 := gcDist_vB_vA
  rw [alongTrackDist_start, hl1, if_neg (by omega), if_pos rfl]
  unfold EPSILON
  constructor
  · norm_num
  · linarith [Real.pi_pos]

theorem bestSegment_loop : bestSegment ⟨[vA, vB, vA]⟩ vB [0, 1] = some 0 := by
  unfold bestSegment
  rw [List.foldl_cons, List.foldl_cons, List.foldl_nil]
  show (if crossTrackDev vB vA vB < crossTrackDev vA vB vB then some 1 else some 0) = some 0
  rw [crossTrackDev_start, crossTrackDev_end]
  rw [if_neg (lt_irrefl 0)]

theorem projectPoint_loop_B : projectPoint ⟨[vA, vB, vA]⟩ vB = Real.pi / 2 := by
  unfold projectPoint
  have hrange : List.range ((⟨[vA, vB, vA]⟩ : EcefPath).points.length - 1) = [0, 1] := rfl
  rw [hrange]
  dsimp only
  have hfilter : List.filter (fun j => segEligibleB ⟨[vA, vB, vA]⟩ j vB) [0, 1] = [0, 1] := by
    simp [List.filter_cons, segEligibleB_loop_0, segEligibleB_loop_1]
  rw [hfilter]
  rw [show ([0, 1] : List ℕ).isEmpty = false from rfl]
  rw [if_neg (by simp)]
  rw [bestSegment_loop]
  show (⟨[vA, vB, vA]⟩ : EcefPath).segmentCandidate 0 vB = Real.pi / 2
  unfold EcefPath.segmentCandidate EcefPath.segStart
  rw [path_distances_head]
  show (0 : ℝ) + alongTrackDist vA vB vB = Real.pi / 2
  rw [alongTrack_vA_vB_vB]
  ring

/-!  ## Claim theorems: horizontal path derivation and projection -/

/-- Structural facts about a successful `derive_horizontal_path` call: the
waypoints are a subsequence of the input and keep its first and last
points. -/
theorem derive_ok_structure (pts : List Vec3) (tol : ℝ) (path : EcefPath)
    (hok : derive_horizontal_path pts tol = .ok path) :
    path.points.Sublist pts ∧ path.points.head? = pts.head? ∧
    path.points.getLast? = pts.getLast? := by
  unfold derive_horizontal_path at hok
  by_cases hlen : pts.length < 2
  · rw [if_pos hlen] at hok; cases hok
  rw [if_neg hlen] at hok
  push_neg at hlen
  cases hok
  obtain ⟨hh, hl, hchain, hmem⟩ :=
    simplifyIndices_spec pts tol 0 (pts.length - 1) (by omega)
  have hbound : ∀ i ∈ simplifyIndices pts tol 0 (pts.length - 1), i < pts.length := by
    intro i hi
    have := (hmem i hi).2
    omega
  refine ⟨?_, ?_, ?_⟩
  · exact sublist_of_sorted_indices _ _ le_rfl pts hchain hbound
  · show ((simplifyIndices pts tol 0 (pts.length - 1)).map
      (fun i => pts.getD i default)).head? = pts.head?
    rw [List.head?_map, hh]
    cases pts with
    | nil => simp at hlen
    | cons a l => rfl
  · show ((simplifyIndices pts tol 0 (pts.length - 1)).map
      (fun i => pts.getD i default)).getLast? = pts.getLast?
    rw [List.getLast?_map, hl]
    rw [List.getLast?_eq_getElem?]
    show some (pts.getD (pts.length - 1) default) = pts[pts.length - 1]?
    rw [List.getD_eq_getElem _ _ (by omega), List.getElem?_eq_getElem (by omega)]

/-- C3: the waypoints returned by `derive_horizontal_path` for any input of
at least 2 points form a subsequence of the input in original traversal
order and include the first and last input points. -/
theorem derive_horizontal_path_subsequence (pts : List Vec3) (tol : ℝ) (path : EcefPath)
    (hok : derive_horizontal_path pts tol = .ok path) :
    path.points.Sublist pts ∧ path.points.head? = pts.head? ∧
    path.points.getLast? = pts.getLast? :=
  derive_ok_structure pts tol path hok

/-- Witness for C3 on a concrete two-point input. -/
theorem derive_horizontal_path_subsequence_witness :
    (derive_horizontal_path [vA, vB] (1/100) = .ok ⟨[vA, vB]⟩) ∧
    ((⟨[vA, vB]⟩ : EcefPath).points.Sublist [vA, vB] ∧
      (⟨[vA, vB]⟩ : EcefPath).points.head? = [vA, vB].head? ∧
      (⟨[vA, vB]⟩ : EcefPath).points.getLast? = [vA, vB].getLast?) :=
  ⟨derive_two_eval (1/100),
   derive_horizontal_path_subsequence [vA, vB] (1/100) ⟨[vA, vB]⟩ (derive_two_eval (1/100))⟩

/-- C5 counterexample: on the path derived from [vA, vB, vA] (which returns
to its starting point) the distances that `calculate_path_distances` assigns
to the path's own waypoints are [x, π/2, x] for a single number x (the same
point must get the same distance), so they cannot both start at 0 and be
non-decreasing. -/
theorem projected_distances_invariants_counterexample :
    ¬ (∀ path : EcefPath, derive_horizontal_path [vA, vB, vA] (1/100) = .ok path →
        (path.calculate_path_distances path.points (1/100)).getD 0 0 = 0 ∧
        (∀ x ∈ path.calculate_path_distances path.points (1/100), 0 ≤ x) ∧
        (path.calculate_path_distances path.points (1/100)).Chain' (· ≤ ·)) := by
  intro h
  obtain ⟨h0, hnn, hchain⟩ := h ⟨[vA, vB, vA]⟩ derive_loop_eval
  have hlist : (⟨[vA, vB, vA]⟩ : EcefPath).calculate_path_distances
      (⟨[vA, vB, vA]⟩ : EcefPath).points (1/100) =
      [projectPoint ⟨[vA, vB, vA]⟩ vA, Real.pi / 2, projectPoint ⟨[vA, vB, vA]⟩ vA] := by
    show [projectPoint ⟨[vA, vB, vA]⟩ vA, projectPoint ⟨[vA, vB, vA]⟩ vB,
      projectPoint ⟨[vA, vB, vA]⟩ vA] = _
    rw [projectPoint_loop_B]
  rw [hlist] at h0 hchain
  have hv0 : projectPoint ⟨[vA, vB, vA]⟩ vA = 0 := h0
  rw [hv0] at hchain
  have h1 := List.chain'_cons.mp hchain
  have h2 := List.chain'_cons.mp h1.2
  have := h2.1
  linarith [Real.pi_pos]

/-- C5 (amended): for every Path produced by `derive_horizontal_path`, the
path's own stored cumulative distance array starts at 0 and is non-negative
and monotonically non-decreasing; the distances `calculate_path_distances`
returns for the path's own waypoints satisfy the same property only when the
projector reproduces the stored distances, which fails for a path that
revisits a point (see the counterexample). -/
theorem path_distances_invariants (pts : List Vec3) (tol : ℝ) (path : EcefPath)
    (hok : derive_horizontal_path pts tol = .ok path) :
    path.path_distances.getD 0 0 = 0 ∧
    (∀ x ∈ path.path_distances, 0 ≤ x) ∧
    path.path_distances.Chain' (· ≤ ·) :=
  ⟨path_distances_head path, path_distances_nonneg path, path_distances_chain path⟩

/-- Witness for C5's amended invariants on a concrete two-point path. -/
theorem path_distances_invariants_witness :
    (derive_horizontal_path [vA, vB] (1/100) = .ok ⟨[vA, vB]⟩) ∧
    ((⟨[vA, vB]⟩ : EcefPath).path_distances.getD 0 0 = 0 ∧
      (∀ x ∈ (⟨[vA, vB]⟩ : EcefPath).path_distances, 0 ≤ x) ∧
      (⟨[vA, vB]⟩ : EcefPath).path_distances.Chain' (· ≤ ·)) :=
  ⟨derive_two_eval (1/100),
   path_distances_invariants [vA, vB] (1/100) ⟨[vA, vB]⟩ (derive_two_eval (1/100))⟩

/-- C2 counterexample: `calculate_path_distances` assigns one distance per
point, but the path derived from [vA, vB, vA] stores distance 0 for waypoint
0 and distance π for waypoint 2 even though both waypoints are the same
point vA, so the projector cannot reproduce `path_distances` at every
waypoint of this path. -/
theorem projected_distances_reproduce_counterexample :
    ¬ (∀ path : EcefPath, derive_horizontal_path [vA, vB, vA] (1/100) = .ok path →
        ∀ k, k < path.points.length →
          (path.calculate_path_distances path.points (1/100)).getD k 0 =
            path.path_distances.getD k 0) := by
  intro h
  have h0 := h ⟨[vA, vB, vA]⟩ derive_loop_eval 0 (by norm_num)
  have h2 := h ⟨[vA, vB, vA]⟩ derive_loop_eval 2 (by norm_num)
  rw [dists_loop] at h0 h2
  have hproj : (⟨[vA, vB, vA]⟩ : EcefPath).calculate_path_distances
      (⟨[vA, vB, vA]⟩ : EcefPath).points (1/100) =
      [projectPoint ⟨[vA, vB, vA]⟩ vA, projectPoint ⟨[vA, vB, vA]⟩ vB,
        projectPoint ⟨[vA, vB, vA]⟩ vA] := rfl
  rw [hproj] at h0 h2
  have hgd0 : ([projectPoint ⟨[vA, vB, vA]⟩ vA, projectPoint ⟨[vA, vB, vA]⟩ vB,
      projectPoint ⟨[vA, vB, vA]⟩ vA]).getD 0 0 = projectPoint ⟨[vA, vB, vA]⟩ vA := rfl
  have hgd2 : ([projectPoint ⟨[vA, vB, vA]⟩ vA, projectPoint ⟨[vA, vB, vA]⟩ vB,
      projectPoint ⟨[vA, vB, vA]⟩ vA]).getD 2 0 = projectPoint ⟨[vA, vB, vA]⟩ vA := rfl
  rw [hgd0] at h0
  rw [hgd2] at h2
  have : (0 : ℝ) = Real.pi := by
    calc (0 : ℝ) = projectPoint ⟨[vA, vB, vA]⟩ vA := h0.symm
      _ = Real.pi := h2
  exact Real.pi_ne_zero this.symm

/-- C2 (amended): the projector's per-segment arithmetic is exact at the
path's own waypoints: every waypoint has along-track offset 0 and
perpendicular deviation 0 on its own segment, so that segment's candidate
distance is exactly the stored `path_distances` entry, and the last waypoint
likewise gets exactly the stored total on the final segment (given unit
input vectors).  Full reproduction by `calculate_path_distances` holds
whenever each waypoint's own segment is the selected one; it fails when the
path revisits a point, since the projector returns a single distance per
point (see the counterexample). -/
theorem segment_candidate_reproduces_distances (pts : List Vec3) (tol : ℝ) (path : EcefPath)
    (hunit : ∀ q ∈ pts, q.dot q = 1) (hok : derive_horizontal_path pts tol = .ok path) :
    (∀ k, k + 1 < path.points.length →
      alongTrackDist (path.wp k) (path.wp (k + 1)) (path.wp k) = 0 ∧
      crossTrackDev (path.wp k) (path.wp (k + 1)) (path.wp k) = 0 ∧
      path.segmentCandidate k (path.wp k) = path.path_distances.getD k 0) ∧
    (2 ≤ path.points.length →
      path.segmentCandidate (path.points.length - 2) (path.wp (path.points.length - 1)) =
        path.path_distances.getD (path.points.length - 1) 0) := by
  have hsub : path.points.Sublist pts :=
    (derive_ok_structure pts tol path hok).1
  have hwpunit : ∀ j, j < path.points.length → (path.wp j).dot (path.wp j) = 1 := by
    intro j hj
    have hmem : path.wp j ∈ path.points := by
      unfold EcefPath.wp
      rw [List.getD_eq_getElem _ _ hj]
      exact List.getElem_mem hj
    exact hunit _ (hsub.subset hmem)
  constructor
  · intro k hk
    refine ⟨alongTrackDist_start _ _, crossTrackDev_start _ _, ?_⟩
    unfold EcefPath.segmentCandidate EcefPath.segStart
    rw [alongTrackDist_start]
    ring
  · intro hlen2
    obtain ⟨m, hm⟩ : ∃ m, path.points.length = m + 2 := ⟨path.points.length - 2, by omega⟩
    rw [hm]
    show path.segmentCandidate m (path.wp (m + 1)) = path.path_distances.getD (m + 1) 0
    unfold EcefPath.segmentCandidate EcefPath.segStart
    rw [alongTrackDist_end _ _ (hwpunit m (by omega)) (hwpunit (m + 1) (by omega))]
    rw [path_distances_succ path m (by omega)]
    rfl

/-- Witness for C2's amended exactness on a concrete two-point path. -/
theorem segment_candidate_reproduces_distances_witness :
    ((∀ q ∈ [vA, vB], q.dot q = 1) ∧
      derive_horizontal_path [vA, vB] (1/100) = .ok ⟨[vA, vB]⟩) ∧
    (2 ≤ (⟨[vA, vB]⟩ : EcefPath).points.length →
      (⟨[vA, vB]⟩ : EcefPath).segmentCandidate ((⟨[vA, vB]⟩ : EcefPath).points.length - 2)
          ((⟨[vA, vB]⟩ : EcefPath).wp ((⟨[vA, vB]⟩ : EcefPath).points.length - 1)) =
        (⟨[vA, vB]⟩ : EcefPath).path_distances.getD
          ((⟨[vA, vB]⟩ : EcefPath).points.length - 1) 0) := by
  have hunit : ∀ q ∈ [vA, vB], q.dot q = 1 := by
    intro q hq
    rcases List.mem_cons.mp hq with h | h
    · rw [h]; exact vA_dot_vA
    · rw [List.mem_singleton.mp h]; exact vB_dot_vB
  exact ⟨⟨hunit, derive_two_eval (1/100)⟩,
    (segment_candidate_reproduces_distances [vA, vB] (1/100) ⟨[vA, vB]⟩ hunit
      (derive_two_eval (1/100))).2⟩

/-!  ## Claim theorems: geodetic conversion round trip -/

theorem deg2rad_neg180 : deg2rad (-180) = -Real.pi := by unfold deg2rad; ring

theorem deg2rad_zero : deg2rad 0 = 0 := by unfold deg2rad; ring

theorem deg2rad_90 : deg2rad 90 = Real.pi / 2 := by unfold deg2rad; ring

theorem to_ecef_eval_zero_neg180 : to_ecef 0 (-180) = .ok ⟨-1, 0, 0⟩ := by
  unfold to_ecef
  rw [if_pos (by norm_num)]
  rw [deg2rad_neg180, deg2rad_zero]
  simp [Real.cos_pi, Real.sin_pi]

theorem to_ecef_eval_pole : to_ecef 90 90 = .ok ⟨0, 0, 1⟩ := by
  unfold to_ecef
  rw [if_pos (by norm_num)]
  rw [deg2rad_90]
  simp [Real.cos_pi_div_two, Real.sin_pi_div_two]

/-- C8 counterexample: the round trip fails as stated at two in-range
inputs.  At latitude 0, longitude -180° the recovered longitude is +π
(2π away from -π); at the pole (latitude 90°, longitude 90°) the longitude
is degenerate and 0 is recovered instead of π/2. -/
theorem to_ecef_roundtrip_counterexample :
    (to_ecef 0 (-180) = .ok ⟨-1, 0, 0⟩ ∧
      ¬ |((⟨-1, 0, 0⟩ : Vec3).to_lat_long).2 - deg2rad (-180)| ≤ 1/1000000000) ∧
    (to_ecef 90 90 = .ok ⟨0, 0, 1⟩ ∧
      ¬ |((⟨0, 0, 1⟩ : Vec3).to_lat_long).2 - deg2rad 90| ≤ 1/1000000000) := by
  have hpi := Real.pi_gt_three
  constructor
  · refine ⟨to_ecef_eval_zero_neg180, ?_⟩
    have harg : ((⟨-1, 0, 0⟩ : Vec3).to_lat_long).2 = Real.pi := by
      show Complex.arg (((-1 : ℝ) : ℂ) + ((0 : ℝ) : ℂ) * Complex.I) = Real.pi
      norm_num [Complex.arg_neg_one]
    rw [harg, deg2rad_neg180]
    intro hc
    rw [sub_neg_eq_add, abs_of_pos (by linarith)] at hc
    linarith
  · refine ⟨to_ecef_eval_pole, ?_⟩
    have harg : ((⟨0, 0, 1⟩ : Vec3).to_lat_long).2 = 0 := by
      show Complex.arg (((0 : ℝ) : ℂ) + ((0 : ℝ) : ℂ) * Complex.I) = 0
      norm_num [Complex.arg_zero]
    rw [harg, deg2rad_90]
    intro hc
    rw [zero_sub, abs_neg, abs_of_pos (by linarith)] at hc
    linarith

/-- C8 (amended): for latitudes strictly inside (-90, 90) degrees and
longitudes in (-180, 180] degrees, converting with `to_ecef` and back with
`to_lat_long` recovers latitude and longitude within 1e-9 radians (in the
real model the round trip is exact there); the excluded boundary cases are
exactly the ones the counterexample exhibits. -/
theorem to_ecef_roundtrip (lat lon : ℝ) (h1 : -90 < lat) (h2 : lat < 90) (h3 : -180 < lon)
    (h4 : lon ≤ 180) (v : Vec3) (hv : to_ecef lat lon = .ok v) :
    |v.to_lat_long.1 - deg2rad lat| ≤ 1/1000000000 ∧
    |v.to_lat_long.2 - deg2rad lon| ≤ 1/1000000000 := by
  have hpos : (0 : ℝ) < Real.pi / 180 := by positivity
  have hlat1 : -(Real.pi / 2) < deg2rad lat := by
    have := mul_lt_mul_of_pos_right h1 hpos
    unfold deg2rad
    nlinarith [Real.pi_pos]
  have hlat2 : deg2rad lat < Real.pi / 2 := by
    have := mul_lt_mul_of_pos_right h2 hpos
    unfold deg2rad
    nlinarith [Real.pi_pos]
  have hlon1 : -Real.pi < deg2rad lon := by
    have := mul_lt_mul_of_pos_right h3 hpos
    unfold deg2rad
    nlinarith [Real.pi_pos]
  have hlon2 : deg2rad lon ≤ Real.pi := by
    have := mul_le_mul_of_nonneg_right h4 (le_of_lt hpos)
    unfold deg2rad
    nlinarith [Real.pi_pos]
  have hv' : v = ⟨Real.cos (deg2rad lat) * Real.cos (deg2rad lon),
      Real.cos (deg2rad lat) * Real.sin (deg2rad lon), Real.sin (deg2rad lat)⟩ := by
    unfold to_ecef at hv
    rw [if_pos (⟨by linarith, by linarith, by linarith, by linarith⟩ :
      -90 ≤ lat ∧ lat ≤ 90 ∧ -180 ≤ lon ∧ lon ≤ 180)] at hv
    cases hv
    rfl
  subst hv'
  constructor
  · show |Real.arcsin (Real.sin (deg2rad lat)) - deg2rad lat| ≤ 1/1000000000
    rw [Real.arcsin_sin (by linarith) (by linarith)]
    simp
  · have hcos : 0 < Real.cos (deg2rad lat) :=
      Real.cos_pos_of_mem_Ioo ⟨hlat1, hlat2⟩
    have hfactor : ((Real.cos (deg2rad lat) * Real.cos (deg2rad lon) : ℝ) : ℂ) +
        ((Real.cos (deg2rad lat) * Real.sin (deg2rad lon) : ℝ) : ℂ) * Complex.I =
        ((Real.cos (deg2rad lat) : ℝ) : ℂ) *
          (((Real.cos (deg2rad lon) : ℝ) : ℂ) + ((Real.sin (deg2rad lon) : ℝ) : ℂ) * Complex.I) := by
      push_cast
      ring
    show |Complex.arg _ - deg2rad lon| ≤ 1/1000000000
    rw [hfactor, Complex.arg_real_mul _ hcos, Complex.ofReal_cos, Complex.ofReal_sin,
      Complex.arg_cos_add_sin_mul_I ⟨hlon1, hlon2⟩]
    simp

/-- Witness for C8's amended round trip at latitude 0, longitude 0. -/
theorem to_ecef_roundtrip_witness :
    (-90 < (0 : ℝ) ∧ (0 : ℝ) < 90 ∧ -180 < (0 : ℝ) ∧ (0 : ℝ) ≤ 180 ∧
      to_ecef 0 0 = .ok ⟨1, 0, 0⟩) ∧
    (|((⟨1, 0, 0⟩ : Vec3).to_lat_long).1 - deg2rad 0| ≤ 1/1000000000 ∧
      |((⟨1, 0, 0⟩ : Vec3).to_lat_long).2 - deg2rad 0| ≤ 1/1000000000) := by
  have hok : to_ecef 0 0 = .ok ⟨1, 0, 0⟩ := by
    unfold to_ecef
    rw [if_pos (by norm_num)]
    rw [deg2rad_zero]
    simp
  exact ⟨⟨by norm_num, by norm_num, by norm_num, by norm_num, hok⟩,
    to_ecef_roundtrip 0 0 (by norm_num) (by norm_num) (by norm_num) (by norm_num) ⟨1, 0, 0⟩ hok⟩

/-- C1 counterexample: on the spec's own end-to-end scenario the output
[0, 72, 144, 240] has a final leg of 20 NM in 96 s, i.e. 750 knots, above
the 500-knot bound (5/36 NM/s): with the last raw time preserved exactly,
the 40 NM / 240 s input cannot satisfy a 500-knot bound on every leg. -/
theorem smooth_times_speed_claim_false :
    ¬ (∀ out : List ℚ, smooth_times [0, 10, 20, 40] [0, 58, 121, 240] 3 1 (5/36) = .ok out →
        ∀ i, i + 1 < out.length →
          0 < out.getD (i + 1) 0 - out.getD i 0 →
          (([0, 10, 20, 40] : List ℚ).getD (i + 1) 0 - ([0, 10, 20, 40] : List ℚ).getD i 0) /
            (out.getD (i + 1) 0 - out.getD i 0) ≤ 5/36) := by
  intro h
  have h2 := h [0, 72, 144, 240] smooth_times_scenario_eval 2 (by norm_num) (by norm_num)
  norm_num at h2

/-- C1 (amended): whenever `smooth_times` succeeds with a positive speed
bound and at least one smoothing pass, every consecutive pair of output
times except the final leg (whose endpoint is the exactly-preserved last raw
time) implies a leg speed of at most `maxSpeed`. -/
theorem smooth_times_interior_speed_bound (d t : List ℚ) (w iters : ℕ) (ms : ℚ) (out : List ℚ)
    (hms : 0 < ms) (hiters : 1 ≤ iters) (hok : smooth_times d t w iters ms = .ok out) (i : ℕ)
    (hi : i + 2 < out.length) (hpos : 0 < out.getD (i + 1) 0 - out.getD i 0) :
    (d.getD (i + 1) 0 - d.getD i 0) / (out.getD (i + 1) 0 - out.getD i 0) ≤ ms := by
  obtain ⟨hd2, htd, hw, hout⟩ := smooth_times_ok_elim d t w iters ms out hok
  have hlen : out.length = d.length := by rw [hout]; exact iterSmooth_length _ _ _ _ _ htd
  obtain ⟨u, hu⟩ := iterSmooth_eq_pass_of_pos ms w d iters t hiters
  have hpass : out = smoothPass ms w d u := by rw [hout, hu]
  rw [div_le_iff hpos]
  rw [hpass] at hi hpos ⊢
  exact smoothPass_clamp ms w d u hms i (by rw [← smoothPass_length ms w d u]; omega)

/-- Witness for C1's amended bound: the first leg of the concrete scenario
(10 NM in 72 s = exactly 500 knots). -/
theorem smooth_times_interior_speed_bound_witness :
    (0 < (5 : ℚ)/36 ∧ 1 ≤ 1 ∧
      smooth_times [0, 10, 20, 40] [0, 58, 121, 240] 3 1 (5/36) = .ok [0, 72, 144, 240] ∧
      0 + 2 < ([0, 72, 144, 240] : List ℚ).length ∧
      0 < ([0, 72, 144, 240] : List ℚ).getD 1 0 - ([0, 72, 144, 240] : List ℚ).getD 0 0) ∧
    (([0, 10, 20, 40] : List ℚ).getD 1 0 - ([0, 10, 20, 40] : List ℚ).getD 0 0) /
      (([0, 72, 144, 240] : List ℚ).getD 1 0 - ([0, 72, 144, 240] : List ℚ).getD 0 0) ≤ 5/36 :=
  ⟨⟨by norm_num, le_refl 1, smooth_times_scenario_eval, by norm_num, by norm_num⟩,
   smooth_times_interior_speed_bound [0, 10, 20, 40] [0, 58, 121, 240] 3 1 (5/36)
     [0, 72, 144, 240] (by norm_num) (le_refl 1) smooth_times_scenario_eval 0
     (by norm_num) (by norm_num)⟩
